import Mathlib

/-!
Shallow embedding of `src/ring_buffer.rs` (a fixed-capacity ring buffer with
overwrite-on-full semantics) and proofs of the specification's claims.

Modelling conventions:
* Rust `usize` values are modelled as `Nat` (`front`, `end`, `capacity` stay
  far below `usize::MAX`, so wraparound of the machine integers is unreachable).
* `Vec<T>` is modelled as `List T`; the Rust bound `T: Default` becomes
  `[Inhabited T]` and `T::default()` becomes `default`.
* A Rust panic (out-of-bounds indexing `data[i]`, or `%= 0`) is modelled by an
  `Option` result: `none` means the call panics, `some` carries the result.
-/

set_option linter.unusedSectionVars false

structure RingBuffer (T : Type) where
  data : List T
  front : Nat
  «end» : Nat
  capacity : Nat
  is_empty : Bool
  deriving Repr, DecidableEq

namespace RingBuffer

variable {T : Type} [Inhabited T]

/-- `RingBuffer::new(capacity)`: `vec![T::default(); capacity]`, both cursors
at `0`, empty flag set. -/
def new (capacity : Nat) : RingBuffer T :=
  { data := List.replicate capacity default
    front := 0
    «end» := 0
    capacity := capacity
    is_empty := true }

/-- `RingBuffer::size`, translated branch for branch. -/
def size (b : RingBuffer T) : Nat :=
  if b.«end» > b.front then
    b.«end» - b.front + 1
  else if b.«end» < b.front then
    b.capacity - b.front + b.«end» + 1
  else if b.is_empty then
    0
  else
    1

/-- `RingBuffer::increment_front`: `front += 1; front %= capacity`.
`%= 0` panics in Rust, hence the `Option`. -/
def increment_front (b : RingBuffer T) : Option (RingBuffer T) :=
  if b.capacity = 0 then none
  else some { b with front := (b.front + 1) % b.capacity }

/-- `RingBuffer::increment_end`: `end += 1; end %= capacity`. -/
def increment_end (b : RingBuffer T) : Option (RingBuffer T) :=
  if b.capacity = 0 then none
  else some { b with «end» := (b.«end» + 1) % b.capacity }

/-- The indexed store `data[i] = item`: panics (`none`) when `i` is out of
bounds, otherwise replaces the element at `i`. -/
def setItem (l : List T) (i : Nat) (x : T) : Option (List T) :=
  if i < l.length then some (l.set i x) else none

/-- `RingBuffer::add`, translated branch for branch: on the empty buffer the
flag is cleared and both cursors reset to `0`; otherwise `end` is advanced and,
on collision with `front`, `front` is advanced too; finally
`data[end] = item`. -/
def add (b : RingBuffer T) (item : T) : Option (RingBuffer T) :=
  if b.is_empty then
    let b1 := { b with is_empty := false, front := 0, «end» := 0 }
    (setItem b1.data b1.«end» item).map (fun d => { b1 with data := d })
  else do
    let b1 ← increment_end b
    let b2 ← if b1.front = b1.«end» then increment_front b1 else some b1
    let d ← setItem b2.data b2.«end» item
    some { b2 with data := d }

/-- `RingBuffer::add_from_slice`: adds the items in ascending index order
(`none` as soon as one `add` panics). -/
def add_from_slice (b : RingBuffer T) : List T → Option (RingBuffer T)
  | [] => some b
  | x :: xs =>
    match add b x with
    | none => none
    | some b1 => add_from_slice b1 xs

/-- `RingBuffer::new_from_slice`: `new(source.len())` followed by adding each
element of `source` in ascending index order. -/
def new_from_slice (source : List T) : Option (RingBuffer T) :=
  add_from_slice (new source.length) source

/-- `RingBuffer::peek`: `none` inside the outer `some` models Rust's `None`;
an outer `none` would be the (unreachable on valid states) panic of
`data[front]`. -/
def peek (b : RingBuffer T) : Option (Option T) :=
  if b.is_empty then some none
  else (b.data[b.front]?).map some

/-- `RingBuffer::remove`: returns the element at `front` (or `None` when
empty) together with the successor state. -/
def remove (b : RingBuffer T) : Option (Option T × RingBuffer T) :=
  if b.is_empty then some (none, b)
  else do
    let temp ← b.data[b.front]?
    if b.front = b.«end» then
      some (some temp, { b with is_empty := true })
    else do
      let b1 ← increment_front b
      some (some temp, b1)

/-- `n` successive `remove` calls, collecting the returned values. -/
def removeN (b : RingBuffer T) : Nat → Option (List (Option T) × RingBuffer T)
  | 0 => some ([], b)
  | n + 1 =>
    match remove b with
    | none => none
    | some (r, b1) =>
      match removeN b1 n with
      | none => none
      | some (rs, b2) => some (r :: rs, b2)

/-- `n` successive `peek` calls (`peek` takes `&self`, so the state is passed
through unchanged), collecting the returned values. -/
def peekN (b : RingBuffer T) : Nat → List (Option (Option T)) × RingBuffer T
  | 0 => ([], b)
  | n + 1 =>
    let r := peek b
    let (rs, b2) := peekN b n
    (r :: rs, b2)

/-- Structural well-formedness at capacity `c`: the backing vector has length
`c`, both cursors are in bounds, and on an empty buffer the cursors agree. -/
def WF (c : Nat) (b : RingBuffer T) : Prop :=
  b.capacity = c ∧ b.data.length = c ∧ b.front < c ∧ b.«end» < c ∧
    (b.is_empty = true → b.front = b.«end»)

/-- States reachable from `new c` (with `1 ≤ c`) through successful `add` and
`remove` calls. -/
inductive Reachable (c : Nat) : RingBuffer T → Prop
  | init (hc : 1 ≤ c) : Reachable c (new c)
  | step_add {b b' : RingBuffer T} {x : T} (hb : Reachable c b)
      (h : add b x = some b') : Reachable c b'
  | step_remove {b b' : RingBuffer T} {r : Option T} (hb : Reachable c b)
      (h : remove b = some (r, b')) : Reachable c b'

/-- Cyclic distance from `front` to `end`: on a non-empty well-formed buffer,
`size = dist + 1`. -/
def dist (c f e : Nat) : Nat :=
  (e + c - f) % c

/-- The logical element at offset `k` from `front`. -/
def nth (b : RingBuffer T) (k : Nat) : T :=
  b.data.getD ((b.front + k) % b.capacity) default

/-- Abstraction: the logical contents, oldest first. -/
def toList (b : RingBuffer T) : List T :=
  if b.is_empty then [] else (List.range (size b)).map (nth b)

/-! ### Modular index arithmetic -/

theorem idx_inj {c f j k : Nat} (hj : j < c) (hk : k < c)
    (h : (f + j) % c = (f + k) % c) : j = k :=
  (Nat.ModEq.add_left_cancel' f h).eq_of_lt_of_lt hj hk

theorem dist_lt {c f : Nat} (e : Nat) (hc : 1 ≤ c) : dist c f e < c :=
  Nat.mod_lt _ hc

theorem add_dist {c f e : Nat} (hf : f < c) (he : e < c) :
    (f + dist c f e) % c = e := by
  unfold dist
  rw [Nat.add_mod_mod]
  have h1 : f + (e + c - f) = e + c := by omega
  rw [h1, Nat.add_mod_right, Nat.mod_eq_of_lt he]

theorem dist_add_mod {c f k : Nat} (hf : f < c) (hk : k < c) :
    dist c f ((f + k) % c) = k := by
  have hc : 1 ≤ c := Nat.lt_of_le_of_lt (Nat.zero_le f) hf
  exact idx_inj (dist_lt _ hc) hk
    (add_dist hf (Nat.mod_lt _ hc))

/-! ### `size` in terms of the cyclic distance -/

theorem wf_one_le_cap {c : Nat} {b : RingBuffer T} (h : WF c b) : 1 ≤ c :=
  Nat.lt_of_le_of_lt (Nat.zero_le _) h.2.2.1

theorem size_eq_dist {c : Nat} {b : RingBuffer T} (h : WF c b)
    (hE : b.is_empty = false) : size b = dist c b.front b.«end» + 1 := by
  obtain ⟨hcap, hlen, hf, he, _⟩ := h
  subst hcap
  unfold size dist
  rcases Nat.lt_trichotomy b.front b.«end» with hlt | heq | hgt
  · rw [if_pos hlt]
    have h1 : b.«end» + b.capacity - b.front =
        (b.«end» - b.front) + b.capacity := by omega
    rw [h1, Nat.add_mod_right, Nat.mod_eq_of_lt (by omega)]
  · rw [if_neg (by omega), if_neg (by omega), if_neg (by simp [hE])]
    have h1 : b.«end» + b.capacity - b.front = b.capacity := by omega
    rw [h1, Nat.mod_self]
  · rw [if_neg (by omega), if_pos hgt, Nat.mod_eq_of_lt (by omega)]
    omega

theorem size_of_empty {c : Nat} {b : RingBuffer T} (h : WF c b)
    (hE : b.is_empty = true) : size b = 0 := by
  have hfe : b.front = b.«end» := h.2.2.2.2 hE
  unfold size
  rw [if_neg (by omega), if_neg (by omega), if_pos hE]

theorem size_le_cap {c : Nat} {b : RingBuffer T} (h : WF c b) : size b ≤ c := by
  cases hE : b.is_empty with
  | true => rw [size_of_empty h hE]; exact Nat.zero_le c
  | false =>
    rw [size_eq_dist h hE]
    exact dist_lt _ (wf_one_le_cap h)

theorem one_le_size {c : Nat} {b : RingBuffer T} (h : WF c b)
    (hE : b.is_empty = false) : 1 ≤ size b := by
  rw [size_eq_dist h hE]; omega

/-! ### Basic `toList` facts -/

theorem toList_of_empty {b : RingBuffer T} (hE : b.is_empty = true) :
    toList b = [] := by
  simp [toList, hE]

theorem toList_of_nonempty {b : RingBuffer T} (hE : b.is_empty = false) :
    toList b = (List.range (size b)).map (nth b) := by
  simp [toList, hE]

theorem toList_length {c : Nat} {b : RingBuffer T} (h : WF c b) :
    (toList b).length = size b := by
  cases hE : b.is_empty with
  | true => rw [toList_of_empty hE, size_of_empty h hE]; rfl
  | false => rw [toList_of_nonempty hE]; simp

theorem toList_eq_nil_iff {c : Nat} {b : RingBuffer T} (h : WF c b) :
    toList b = [] ↔ b.is_empty = true := by
  cases hE : b.is_empty with
  | true => simp [toList_of_empty hE]
  | false =>
    constructor
    · intro hnil
      have h1 := toList_length h
      rw [hnil] at h1
      have h2 := one_le_size h hE
      simp only [List.length_nil] at h1
      omega
    · intro htrue
      cases htrue

theorem nth_zero {c : Nat} {b : RingBuffer T} (h : WF c b) :
    nth b 0 = b.data.getD b.front default := by
  unfold nth
  rw [h.1, Nat.add_zero, Nat.mod_eq_of_lt h.2.2.1]

/-! ### Symbolic execution of `add` and `remove` on well-formed states -/
theorem add_eq_of_empty {b : RingBuffer T} (x : T)
    (hlen : b.data.length = b.capacity) (hc : 1 ≤ b.capacity)
    (hE : b.is_empty = true) :
    add b x = some { b with
      is_empty := false
      front := 0
      «end» := 0
      data := b.data.set 0 x } := by
  have h0 : 0 < b.data.length := by omega
  simp [add, hE, setItem, h0]

theorem add_eq_of_nonempty {b : RingBuffer T} (x : T)
    (hlen : b.data.length = b.capacity) (hc : 1 ≤ b.capacity)
    (hE : b.is_empty = false) :
    add b x = some { b with
      front := if b.front = (b.«end» + 1) % b.capacity
        then (b.front + 1) % b.capacity else b.front,
      «end» := (b.«end» + 1) % b.capacity,
      data := b.data.set ((b.«end» + 1) % b.capacity) x } := by
  have hcz : ¬ b.capacity = 0 := by omega
  have hidx : (b.«end» + 1) % b.capacity < b.data.length := by
    rw [hlen]; exact Nat.mod_lt _ hc
  by_cases hcoll : b.front = (b.«end» + 1) % b.capacity
  · simp [add, hE, increment_end, increment_front, setItem, hcz, hidx, hcoll]
  · simp [add, hE, increment_end, increment_front, setItem, hcz, hidx, hcoll]

theorem remove_eq_of_empty {b : RingBuffer T} (hE : b.is_empty = true) :
    remove b = some (none, b) := by
  simp [remove, hE]

theorem remove_eq_of_nonempty {b : RingBuffer T}
    (hlen : b.data.length = b.capacity) (hf : b.front < b.capacity)
    (hE : b.is_empty = false) :
    remove b = some (some (b.data.getD b.front default),
      if b.front = b.«end» then { b with is_empty := true }
      else { b with front := (b.front + 1) % b.capacity }) := by
  have hcz : ¬ b.capacity = 0 := by omega
  have hidx : b.front < b.data.length := by omega
  have hget : b.data[b.front]? = some (b.data.getD b.front default) := by
    rw [List.getElem?_eq_getElem hidx, List.getD_eq_getElem _ _ hidx]
  simp only [remove, hE, Bool.false_eq_true, if_false, hget, Option.some_bind]
  by_cases hfe : b.front = b.«end»
  · simp [hfe]
  · simp [hfe, increment_front, hcz, hE]

/-! ### The abstraction: one step of `add`/`remove` against `toList` -/

theorem range_map_succ {α : Type} (n : Nat) (f : Nat → α) :
    (List.range (n + 1)).map f = (List.range n).map f ++ [f n] := by
  rw [List.range_succ, List.map_append]; rfl

theorem range_map_drop_one {α : Type} (n : Nat) (f : Nat → α) :
    ((List.range (n + 1)).map f).drop 1
      = (List.range n).map (fun k => f (k + 1)) := by
  rw [List.range_succ_eq_map, List.map_cons, List.drop_one, List.tail_cons,
    List.map_map]
  rfl

/-- One `add` against the abstraction: the new element is appended, and when
the buffer is full the oldest element is dropped. -/
theorem add_sim {c : Nat} {b : RingBuffer T} (h : WF c b) (x : T) :
    ∃ b', add b x = some b' ∧ WF c b' ∧ b'.is_empty = false ∧
      toList b' = (if size b = c then (toList b).drop 1 else toList b) ++ [x] ∧
      size b' = min (size b + 1) c := by
  have hc : 1 ≤ c := wf_one_le_cap h
  have hszle := size_le_cap h
  obtain ⟨hcap, hlen, hf, he, hemp⟩ := h
  subst hcap
  cases hE : b.is_empty with
  | true =>
    have hsz0 : size b = 0 :=
      size_of_empty ⟨rfl, hlen, hf, he, hemp⟩ hE
    rw [add_eq_of_empty x hlen hc hE]
    refine ⟨_, rfl, ⟨rfl, ?_, hc, hc, ?_⟩, rfl, ?_, ?_⟩
    · simpa using hlen
    · simp
    · have hsz' : size ({ b with
          is_empty := false
          front := 0
          «end» := 0
          data := b.data.set 0 x } : RingBuffer T) = 1 := by
        simp [size]
      rw [toList_of_nonempty rfl, hsz']
      have h1 : List.range 1 = [0] := by decide
      rw [h1, List.map_cons, List.map_nil]
      rw [if_neg (by omega), toList_of_empty hE]
      have hn : nth ({ b with
          is_empty := false
          front := 0
          «end» := 0
          data := b.data.set 0 x } : RingBuffer T) 0 = x := by
        unfold nth
        simp only [Nat.zero_add, Nat.zero_mod]
        have h0 : 0 < b.data.length := by omega
        simp [List.getD, List.getElem?_set_self, h0]
      rw [hn]
      rfl
    · have hsz' : size ({ b with
          is_empty := false
          front := 0
          «end» := 0
          data := b.data.set 0 x } : RingBuffer T) = 1 := by
        simp [size]
      rw [hsz', hsz0]
      omega
  | false =>
    have hWF : WF b.capacity b := ⟨rfl, hlen, hf, he, hemp⟩
    have hsz : size b = dist b.capacity b.front b.«end» + 1 :=
      size_eq_dist hWF hE
    set d := dist b.capacity b.front b.«end» with hd
    have hdlt : d < b.capacity := dist_lt _ hc
    have hend : (b.front + d) % b.capacity = b.«end» := add_dist hf he
    have hstep : (b.«end» + 1) % b.capacity =
        (b.front + (d + 1)) % b.capacity := by
      rw [← hend, Nat.mod_add_mod, Nat.add_assoc]
    rw [add_eq_of_nonempty x hlen hc hE]
    by_cases hfull : d + 1 = b.capacity
    · -- full: the advanced end collides with front, which advances too
      have he' : (b.«end» + 1) % b.capacity = b.front := by
        rw [hstep, hfull, Nat.add_mod_right, Nat.mod_eq_of_lt hf]
      rw [he', if_pos rfl]
      have hfx : b.front =
          (((b.front + 1) % b.capacity) + (b.capacity - 1)) % b.capacity := by
        rw [Nat.mod_add_mod]
        have h1 : b.front + 1 + (b.capacity - 1) = b.front + b.capacity := by
          omega
        rw [h1, Nat.add_mod_right, Nat.mod_eq_of_lt hf]
      set b1 : RingBuffer T := { b with
        front := (b.front + 1) % b.capacity
        «end» := b.front
        data := b.data.set b.front x } with hb1
      have hE1 : b1.is_empty = false := hE
      have hWF1 : WF b.capacity b1 :=
        ⟨rfl, by simpa using hlen, Nat.mod_lt _ hc, hf, by simp [hb1, hE]⟩
      have hsz1 : size b1 = b.capacity := by
        rw [size_eq_dist hWF1 hE1]
        have hD := dist_add_mod (Nat.mod_lt (b.front + 1) hc)
          (show b.capacity - 1 < b.capacity by omega)
        rw [← hfx] at hD
        have hD2 : dist b.capacity b1.front b1.«end» = b.capacity - 1 := hD
        rw [hD2]
        omega
      refine ⟨b1, rfl, hWF1, hE1, ?_, ?_⟩
      · rw [toList_of_nonempty hE1, hsz1,
          if_pos (show size b = b.capacity by omega),
          toList_of_nonempty hE, hsz, hfull]
        obtain ⟨m, hm⟩ : ∃ m, b.capacity = m + 1 := ⟨b.capacity - 1, by omega⟩
        rw [hm, range_map_succ, range_map_drop_one]
        congr 1
        · apply List.map_congr_left
          intro k hk
          have hkm : k < m := List.mem_range.mp hk
          show (b.data.set b.front x).getD
              (((b.front + 1) % b.capacity + k) % b.capacity) default
            = b.data.getD ((b.front + (k + 1)) % b.capacity) default
          rw [Nat.mod_add_mod]
          have h1 : b.front + 1 + k = b.front + (k + 1) := by omega
          rw [h1]
          have hne2 : b.front ≠ (b.front + (k + 1)) % b.capacity := by
            intro hcontra
            have h0 : (b.front + 0) % b.capacity
                = (b.front + (k + 1)) % b.capacity := by
              rw [Nat.add_zero, Nat.mod_eq_of_lt hf]
              exact hcontra
            have h2 := idx_inj hc (show k + 1 < b.capacity by omega) h0
            omega
          simp [List.getD, List.getElem?_set_ne hne2]
        · show [nth b1 m] = [x]
          have hlast : nth b1 m = x := by
            show (b.data.set b.front x).getD
                (((b.front + 1) % b.capacity + m) % b.capacity) default = x
            have h2 : ((b.front + 1) % b.capacity + m) % b.capacity
                = b.front := by
              rw [Nat.mod_add_mod]
              have h1 : b.front + 1 + m = b.front + b.capacity := by omega
              rw [h1, Nat.add_mod_right, Nat.mod_eq_of_lt hf]
            rw [h2]
            have hflen : b.front < b.data.length := by omega
            simp [List.getD, List.getElem?_set_self, hflen]
          rw [hlast]
      · rw [hsz1]
        omega
    · -- not full: only the end cursor advances
      have hne' : ¬ b.front = (b.«end» + 1) % b.capacity := by
        intro hcontra
        have h0 : (b.front + 0) % b.capacity
            = (b.front + (d + 1)) % b.capacity := by
          rw [Nat.add_zero, Nat.mod_eq_of_lt hf, ← hstep, ← hcontra]
        have h1 := idx_inj hc (show d + 1 < b.capacity by omega) h0
        omega
      rw [if_neg hne', hstep]
      set b1 : RingBuffer T := { b with
        front := b.front
        «end» := (b.front + (d + 1)) % b.capacity
        data := b.data.set ((b.front + (d + 1)) % b.capacity) x } with hb1
      have hE1 : b1.is_empty = false := hE
      have hWF1 : WF b.capacity b1 :=
        ⟨rfl, by simpa using hlen, hf, Nat.mod_lt _ hc, by simp [hb1, hE]⟩
      have hsz1 : size b1 = d + 2 := by
        rw [size_eq_dist hWF1 hE1]
        have hD : dist b.capacity b1.front b1.«end» = d + 1 :=
          dist_add_mod hf (show d + 1 < b.capacity by omega)
        rw [hD]
      refine ⟨b1, rfl, hWF1, hE1, ?_, ?_⟩
      · rw [toList_of_nonempty hE1, hsz1, if_neg (by omega),
          toList_of_nonempty hE, hsz,
          show d + 2 = (d + 1) + 1 from rfl, range_map_succ]
        congr 1
        · apply List.map_congr_left
          intro k hk
          have hkd : k < d + 1 := List.mem_range.mp hk
          show (b.data.set ((b.front + (d + 1)) % b.capacity) x).getD
              ((b.front + k) % b.capacity) default
            = b.data.getD ((b.front + k) % b.capacity) default
          have hne2 : (b.front + (d + 1)) % b.capacity
              ≠ (b.front + k) % b.capacity := by
            intro hcontra
            have h2 := idx_inj (show d + 1 < b.capacity by omega)
              (show k < b.capacity by omega) hcontra
            omega
          simp [List.getD, List.getElem?_set_ne hne2]
        · show [nth b1 (d + 1)] = [x]
          have hlast : nth b1 (d + 1) = x := by
            show (b.data.set ((b.front + (d + 1)) % b.capacity) x).getD
                ((b.front + (d + 1)) % b.capacity) default = x
            have hidx2 : (b.front + (d + 1)) % b.capacity < b.data.length := by
              rw [hlen]
              exact Nat.mod_lt _ hc
            simp [List.getD, List.getElem?_set_self, hidx2]
          rw [hlast]
      · rw [hsz1]
        omega


theorem head_toList {c : Nat} {b : RingBuffer T} (h : WF c b)
    (hE : b.is_empty = false) :
    (toList b).head? = some (nth b 0) := by
  rw [toList_of_nonempty hE, size_eq_dist h hE, List.range_succ_eq_map,
    List.map_cons, List.head?_cons]

/-- One `remove` on a non-empty buffer against the abstraction: the head of
the logical contents is returned and dropped. -/
theorem remove_sim {c : Nat} {b : RingBuffer T} (h : WF c b)
    (hE : b.is_empty = false) :
    ∃ b', remove b = some (some (nth b 0), b') ∧ WF c b' ∧
      toList b' = (toList b).drop 1 ∧ size b' + 1 = size b := by
  have hc : 1 ≤ c := wf_one_le_cap h
  obtain ⟨hcap, hlen, hf, he, hemp⟩ := h
  subst hcap
  have hWF : WF b.capacity b := ⟨rfl, hlen, hf, he, hemp⟩
  have hn0 : nth b 0 = b.data.getD b.front default := nth_zero hWF
  have hsz : size b = dist b.capacity b.front b.«end» + 1 := size_eq_dist hWF hE
  set d := dist b.capacity b.front b.«end» with hd
  have hdlt : d < b.capacity := dist_lt _ hc
  have hend : (b.front + d) % b.capacity = b.«end» := add_dist hf he
  rw [remove_eq_of_nonempty hlen hf hE, ← hn0]
  by_cases hfe : b.front = b.«end»
  · -- removing the only element: the empty flag is set
    have hd0 : d = 0 := by
      have hD := dist_add_mod hf hc
      rw [Nat.add_zero, Nat.mod_eq_of_lt hf] at hD
      rw [hd, ← hfe, hD]
    rw [if_pos hfe]
    refine ⟨_, rfl, ⟨rfl, hlen, hf, he, fun _ => hfe⟩, ?_, ?_⟩
    · rw [toList_of_empty rfl, toList_of_nonempty hE, hsz, hd0]
      simp [List.range_succ]
    · have hWFE : WF b.capacity ({ b with is_empty := true } : RingBuffer T) :=
        ⟨rfl, hlen, hf, he, fun _ => hfe⟩
      rw [size_of_empty hWFE rfl]
      omega
  · -- more than one element: the front cursor advances
    have hd1 : 1 ≤ d := by
      rcases Nat.eq_zero_or_pos d with h0 | h1
      · exfalso
        apply hfe
        rw [← hend, h0, Nat.add_zero, Nat.mod_eq_of_lt hf]
      · exact h1
    rw [if_neg hfe]
    set b1 : RingBuffer T := { b with front := (b.front + 1) % b.capacity }
      with hb1
    have hE1 : b1.is_empty = false := hE
    have hWF1 : WF b.capacity b1 :=
      ⟨rfl, hlen, Nat.mod_lt _ hc, he, by simp [hb1, hE]⟩
    have hsz1 : size b1 = d := by
      rw [size_eq_dist hWF1 hE1]
      have hee : (((b.front + 1) % b.capacity) + (d - 1)) % b.capacity
          = b.«end» := by
        rw [Nat.mod_add_mod]
        have h1 : b.front + 1 + (d - 1) = b.front + d := by omega
        rw [h1, hend]
      have hD := dist_add_mod (Nat.mod_lt (b.front + 1) hc)
        (show d - 1 < b.capacity by omega)
      rw [hee] at hD
      have hD2 : dist b.capacity b1.front b1.«end» = d - 1 := hD
      rw [hD2]
      omega
    refine ⟨b1, rfl, hWF1, ?_, ?_⟩
    · rw [toList_of_nonempty hE1, hsz1, toList_of_nonempty hE, hsz,
        range_map_drop_one]
      apply List.map_congr_left
      intro k hk
      have hkd : k < d := List.mem_range.mp hk
      show b.data.getD (((b.front + 1) % b.capacity + k) % b.capacity) default
        = b.data.getD ((b.front + (k + 1)) % b.capacity) default
      rw [Nat.mod_add_mod]
      have h1 : b.front + 1 + k = b.front + (k + 1) := by omega
      rw [h1]
    · rw [hsz1]
      omega

/-- `peek` returns the head of the logical contents and touches nothing. -/
theorem peek_sim {c : Nat} {b : RingBuffer T} (h : WF c b) :
    peek b = some ((toList b).head?) := by
  cases hE : b.is_empty with
  | true =>
    rw [toList_of_empty hE]
    simp [peek, hE]
  | false =>
    have hflen : b.front < b.data.length := by
      have h1 := h.2.1
      have h2 := h.2.2.1
      omega
    rw [head_toList h hE, nth_zero h]
    unfold peek
    rw [hE]
    simp only [Bool.false_eq_true, if_false]
    rw [List.getElem?_eq_getElem hflen, List.getD_eq_getElem _ _ hflen]
    rfl


/-! ### Multi-step lemmas and the reachability invariant -/

theorem new_wf {c : Nat} (hc : 1 ≤ c) : WF c (new c : RingBuffer T) :=
  ⟨rfl, List.length_replicate c default, hc, hc, fun _ => rfl⟩

theorem toList_new (c : Nat) : toList (new c : RingBuffer T) = [] :=
  toList_of_empty rfl

/-- Adding a block of items that fits in the remaining room appends them. -/
theorem add_from_slice_sim {c : Nat} (vs : List T) {b : RingBuffer T}
    (h : WF c b) (hroom : (toList b).length + vs.length ≤ c) :
    ∃ b', add_from_slice b vs = some b' ∧ WF c b' ∧
      toList b' = toList b ++ vs := by
  induction vs generalizing b with
  | nil => exact ⟨b, rfl, h, by simp⟩
  | cons x xs ih =>
    have hroom' : (toList b).length + xs.length + 1 ≤ c := by
      have hh := hroom
      simp only [List.length_cons] at hh
      omega
    obtain ⟨b1, hb1, hWF1, hE1, hT1, hS1⟩ := add_sim h x
    have hszb : size b = (toList b).length := (toList_length h).symm
    rw [if_neg (by omega)] at hT1
    obtain ⟨b2, hb2, hWF2, hT2⟩ := ih hWF1 (by
      rw [hT1]
      simp only [List.length_append, List.length_singleton]
      omega)
    refine ⟨b2, ?_, hWF2, ?_⟩
    · rw [add_from_slice, hb1]
      exact hb2
    · rw [hT2, hT1]
      simp
  
/-- Any block of adds on a well-formed buffer succeeds and preserves
well-formedness (overwriting or not). -/
theorem add_from_slice_wf {c : Nat} (vs : List T) {b : RingBuffer T}
    (h : WF c b) :
    ∃ b', add_from_slice b vs = some b' ∧ WF c b' := by
  induction vs generalizing b with
  | nil => exact ⟨b, rfl, h⟩
  | cons x xs ih =>
    obtain ⟨b1, hb1, hWF1, _, _, _⟩ := add_sim h x
    obtain ⟨b2, hb2, hWF2⟩ := ih hWF1
    refine ⟨b2, ?_, hWF2⟩
    rw [add_from_slice, hb1]
    exact hb2

/-- Draining a buffer whose logical contents are `vs` returns exactly
`vs.map some`. -/
theorem removeN_sim {c : Nat} (vs : List T) {b : RingBuffer T} (h : WF c b)
    (hT : toList b = vs) :
    ∃ b', removeN b vs.length = some (vs.map some, b') ∧ WF c b' ∧
      toList b' = [] := by
  induction vs generalizing b with
  | nil => exact ⟨b, rfl, h, hT⟩
  | cons v rest ih =>
    cases hE : b.is_empty with
    | true =>
      rw [toList_of_empty hE] at hT
      simp at hT
    | false =>
      obtain ⟨b1, hb1, hWF1, hT1, _⟩ := remove_sim h hE
      have hv : nth b 0 = v := by
        have hh := head_toList h hE
        rw [hT] at hh
        simp only [List.head?_cons, Option.some.injEq] at hh
        exact hh.symm
      obtain ⟨b2, hb2, hWF2, hT2⟩ := ih hWF1 (by rw [hT1, hT]; simp)
      refine ⟨b2, ?_, hWF2, hT2⟩
      show removeN b (rest.length + 1) = some ((v :: rest).map some, b2)
      rw [removeN, hb1]
      simp [hb2, hv]

/-- Every reachable state is structurally well-formed. -/
theorem reachable_wf {c : Nat} {b : RingBuffer T} (h : Reachable c b) :
    WF c b := by
  induction h with
  | init hc => exact new_wf hc
  | step_add hb hadd ih =>
    rename_i b0 b1 x
    obtain ⟨b2, hb2, hWF2, _, _, _⟩ := add_sim ih x
    rw [hadd] at hb2
    exact (Option.some.inj hb2).symm ▸ hWF2
  | step_remove hb hrem ih =>
    rename_i b0 b1 r
    cases hE : b0.is_empty with
    | true =>
      rw [remove_eq_of_empty hE] at hrem
      have hp := Option.some.inj hrem
      have hbb : b0 = b1 := congrArg Prod.snd hp
      exact hbb ▸ ih
    | false =>
      obtain ⟨b2, hb2, hWF2, _, _⟩ := remove_sim ih hE
      rw [hb2] at hrem
      have hp := Option.some.inj hrem
      have hbb : b2 = b1 := congrArg Prod.snd hp
      exact hbb ▸ hWF2

/-! ### The claims -/

theorem add_from_slice_concat (b : RingBuffer T) (u : List T) (z : T) :
    add_from_slice b (u ++ [z]) =
      match add_from_slice b u with
      | none => none
      | some b1 => add b1 z := by
  induction u generalizing b with
  | nil =>
    show add_from_slice b [z] = add b z
    rw [add_from_slice]
    cases add b z with
    | none => rfl
    | some b1 => rfl
  | cons x xs ih =>
    rw [List.cons_append, add_from_slice, add_from_slice]
    cases add b x with
    | none => rfl
    | some b1 => exact ih b1

/-- C1: for `new c` with `c ≥ 1` and any `vs` with `vs.length ≤ c`
(no overwrite), adding `vs` and then removing `vs.length` times succeeds and
returns exactly `vs.map some`, in order. -/
theorem fifo_order_law (c : Nat) (hc : 1 ≤ c) (vs : List T)
    (hlen : vs.length ≤ c) :
    ∃ b b', add_from_slice (new c) vs = some b ∧
      removeN b vs.length = some (vs.map some, b') := by
  obtain ⟨b, hb, hWF, hT⟩ := add_from_slice_sim vs (new_wf hc)
    (by rw [toList_new]; simpa using hlen)
  rw [toList_new] at hT
  obtain ⟨b', hb', _, _⟩ := removeN_sim vs hWF (by rw [hT]; rfl)
  exact ⟨b, b', hb, hb'⟩

/-- C1 witness at `c = 3`, `vs = [10, 20]`. -/
theorem fifo_order_law_witness :
    ∃ b b', add_from_slice (new 3) [10, 20] = some b ∧
      removeN b ([10, 20] : List Nat).length = some ([10, 20].map some, b') :=
  fifo_order_law 3 (by decide) [10, 20] (by decide)

/-- C2: adding `c + 1` items in order to `new c` and draining via `remove`
yields items `2 .. c+1` in order (the first is discarded), and every
intermediate state after any prefix of the adds has `size ≤ c`. -/
theorem overwrite_law (c : Nat) (hc : 1 ≤ c) (vs : List T)
    (hlen : vs.length = c + 1) :
    ∃ b b', add_from_slice (new c) vs = some b ∧
      removeN b c = some ((vs.drop 1).map some, b') ∧
      ∀ k, k ≤ c + 1 →
        ∃ bk, add_from_slice (new c) (vs.take k) = some bk ∧ size bk ≤ c := by
  have hvs : vs ≠ [] := by
    intro h0
    rw [h0] at hlen
    simp at hlen
  have hyz : vs.dropLast ++ [vs.getLast hvs] = vs :=
    List.dropLast_append_getLast hvs
  have hys : vs.dropLast.length = c := by
    rw [List.length_dropLast, hlen]
    omega
  obtain ⟨b1, hb1, hWF1, hT1⟩ := add_from_slice_sim vs.dropLast (new_wf hc)
    (by rw [toList_new]; simpa using Nat.le_of_eq hys)
  rw [toList_new] at hT1
  simp only [List.nil_append] at hT1
  have hsz1 : size b1 = c := by
    rw [← toList_length hWF1, hT1, hys]
  obtain ⟨b2, hb2, hWF2, hE2, hT2, hS2⟩ := add_sim hWF1 (vs.getLast hvs)
  rw [if_pos hsz1, hT1] at hT2
  have hT2' : toList b2 = vs.drop 1 := by
    rw [hT2, ← List.drop_append_of_le_length (by omega), hyz]
  have hfull : add_from_slice (new c) vs = some b2 := by
    have hcc := add_from_slice_concat (new c) vs.dropLast (vs.getLast hvs)
    rw [hyz, hb1] at hcc
    rw [hcc]
    exact hb2
  have hdl : (vs.drop 1).length = c := by
    rw [List.length_drop, hlen]
    omega
  obtain ⟨b', hb', _, _⟩ := removeN_sim (vs.drop 1) hWF2 hT2'
  rw [hdl] at hb'
  refine ⟨b2, b', hfull, hb', ?_⟩
  intro k _
  obtain ⟨bk, hbk, hWFk⟩ := add_from_slice_wf (vs.take k) (new_wf hc)
  exact ⟨bk, hbk, by rw [← hWFk.1]; exact hWFk.1 ▸ size_le_cap hWFk⟩

/-- C2 witness at `c = 2`, `vs = [1, 2, 3]`. -/
theorem overwrite_law_witness :
    ∃ b b', add_from_slice (new 2) [1, 2, 3] = some b ∧
      removeN b 2 = some ((([1, 2, 3] : List Nat).drop 1).map some, b') ∧
      ∀ k, k ≤ 2 + 1 →
        ∃ bk, add_from_slice (new 2) ([1, 2, 3].take k) = some bk ∧
          size bk ≤ 2 :=
  overwrite_law 2 (by decide) [1, 2, 3] (by decide)


/-- C3: `add` on an empty buffer clears the flag, resets both cursors to `0`
and stores the item at slot `0`; on a non-empty buffer it advances `end` by
one modulo capacity, additionally advances `front` when the advanced `end`
collides with `front` (the buffer was full), and stores the item at the new
`end` slot. (The hypotheses state the structural facts every actual buffer
satisfies: the backing vector has length `capacity ≥ 1`.) -/
theorem add_step_behavior (b : RingBuffer T) (item : T)
    (hlen : b.data.length = b.capacity) (hc : 1 ≤ b.capacity) :
    (b.is_empty = true → add b item = some { b with
      is_empty := false
      front := 0
      «end» := 0
      data := b.data.set 0 item }) ∧
    (b.is_empty = false → add b item = some { b with
      front := if b.front = (b.«end» + 1) % b.capacity
        then (b.front + 1) % b.capacity else b.front,
      «end» := (b.«end» + 1) % b.capacity,
      data := b.data.set ((b.«end» + 1) % b.capacity) item }) :=
  ⟨fun hE => add_eq_of_empty item hlen hc hE,
   fun hE => add_eq_of_nonempty item hlen hc hE⟩

/-- C3 witness: the empty branch evaluated on `new 2`. -/
theorem add_step_behavior_witness :
    add (new 2 : RingBuffer Nat) 9 = some { (new 2 : RingBuffer Nat) with
      is_empty := false
      front := 0
      «end» := 0
      data := (new 2 : RingBuffer Nat).data.set 0 9 } :=
  (add_step_behavior (new 2) 9 (by decide) (by decide)).1 rfl

/-- C4: on every reachable state (from `new c`, `c ≥ 1`), `size` equals
`end - front + 1` when `end ≥ front` and `capacity - front + end + 1`
otherwise, lies in `[1, capacity]` when the buffer is non-empty, and is `0`
when the buffer is empty. -/
theorem size_invariant {c : Nat} {b : RingBuffer T} (h : Reachable c b) :
    (b.is_empty = false →
      size b = (if b.front ≤ b.«end» then b.«end» - b.front + 1
        else b.capacity - b.front + b.«end» + 1) ∧
      1 ≤ size b ∧ size b ≤ b.capacity) ∧
    (b.is_empty = true → size b = 0) := by
  have hWF := reachable_wf h
  have hcap : b.capacity = c := hWF.1
  constructor
  · intro hE
    refine ⟨?_, one_le_size hWF hE, by rw [hcap]; exact size_le_cap hWF⟩
    obtain ⟨hc1, hlen, hf, he, hemp⟩ := hWF
    unfold size
    rcases Nat.lt_trichotomy b.front b.«end» with hlt | heq | hgt
    · rw [if_pos hlt, if_pos (by omega)]
    · rw [if_neg (by omega), if_neg (by omega), if_neg (by simp [hE]),
        if_pos (by omega)]
      omega
    · rw [if_neg (by omega), if_pos hgt, if_neg (by omega)]
  · intro hE
    exact size_of_empty hWF hE

/-- C4 witness: the empty clause evaluated at `new 1`. -/
theorem size_invariant_witness : size (new 1 : RingBuffer Nat) = 0 :=
  (size_invariant (Reachable.init (by decide))).2 rfl

/-- C5: a fresh buffer has `size 0`, is empty, and `peek`/`remove` return
`None`; removing from any empty buffer, any number of times, returns `None`
and leaves the state unchanged. -/
theorem empty_buffer_laws (c : Nat) :
    size (new c : RingBuffer T) = 0 ∧
    (new c : RingBuffer T).is_empty = true ∧
    peek (new c : RingBuffer T) = some none ∧
    remove (new c : RingBuffer T) = some (none, new c) ∧
    (∀ b : RingBuffer T, b.is_empty = true →
      remove b = some (none, b) ∧
      ∀ n, removeN b n = some (List.replicate n none, b)) := by
  refine ⟨?_, rfl, ?_, remove_eq_of_empty rfl, ?_⟩
  · simp [size, new]
  · simp [peek, new]
  · intro b hE
    refine ⟨remove_eq_of_empty hE, ?_⟩
    intro n
    induction n with
    | zero => rfl
    | succ m ih =>
      rw [removeN, remove_eq_of_empty hE]
      simp [ih, List.replicate_succ]

/-- C5 witness: three removes on an empty buffer of capacity 2. -/
theorem empty_buffer_laws_witness :
    removeN (new 2 : RingBuffer Nat) 3 = some (List.replicate 3 none, new 2) :=
  ((empty_buffer_laws 2).2.2.2.2 (new 2) rfl).2 3

/-- C6: `new_from_slice items` is by definition `new items.length` followed
by adding each item in ascending index order (so all observations agree with
that add sequence); it succeeds, its capacity is `items.length`, and its
logical contents are exactly `items`. -/
theorem new_from_slice_equiv (source : List T) :
    new_from_slice source = add_from_slice (new source.length) source ∧
    ∃ b, new_from_slice source = some b ∧ b.capacity = source.length ∧
      toList b = source := by
  refine ⟨rfl, ?_⟩
  cases hs : source with
  | nil => exact ⟨new 0, rfl, rfl, toList_new 0⟩
  | cons x xs =>
    have hc : 1 ≤ (x :: xs).length := by simp
    obtain ⟨b, hb, hWF, hT⟩ := add_from_slice_sim (x :: xs) (new_wf hc)
      (by rw [toList_new]; simp)
    refine ⟨b, hb, hWF.1, ?_⟩
    rw [hT, toList_new]
    rfl

/-- C7, counterexample: `new(0)` is not rejected — it silently returns the
(unusable) buffer with empty storage — and `add` on it is reachable through
the public interface: it panics (out-of-bounds store, modelled as `none`). -/
theorem new_zero_not_rejected :
    (new 0 : RingBuffer Nat) =
      { data := [], front := 0, «end» := 0, capacity := 0,
        is_empty := true } ∧
    add (new 0 : RingBuffer Nat) 7 = none := by
  constructor
  · rfl
  · rfl

/-- C7, amended: constructing with capacity zero silently yields a capacity-0
buffer, and every `add` on it panics with an out-of-bounds store. -/
theorem add_on_zero_capacity_panics :
    (new 0 : RingBuffer T).capacity = 0 ∧
    ∀ x : T, add (new 0 : RingBuffer T) x = none := by
  refine ⟨rfl, ?_⟩
  intro x
  simp [add, new, setItem]


/-- C8: on every reachable state (capacity ≥ 1), both cursors are strictly
below capacity (so no out-of-bounds access occurs), `add` always succeeds,
and `peek`/`remove` always return (no panic), signalling absence only
through the inner `Option`. -/
theorem totality_and_bounds {c : Nat} {b : RingBuffer T} (h : Reachable c b) :
    b.front < b.capacity ∧ b.«end» < b.capacity ∧
    (∀ x : T, ∃ b', add b x = some b') ∧
    (∃ r : Option T, peek b = some r) ∧
    (∃ r : Option T, ∃ b', remove b = some (r, b')) := by
  have hWF := reachable_wf h
  have hcap : b.capacity = c := hWF.1
  refine ⟨by rw [hcap]; exact hWF.2.2.1, by rw [hcap]; exact hWF.2.2.2.1,
    ?_, ?_, ?_⟩
  · intro x
    obtain ⟨b', hb', _⟩ := add_sim hWF x
    exact ⟨b', hb'⟩
  · exact ⟨(toList b).head?, peek_sim hWF⟩
  · cases hE : b.is_empty with
    | true => exact ⟨none, b, remove_eq_of_empty hE⟩
    | false =>
      obtain ⟨b', hb', _⟩ := remove_sim hWF hE
      exact ⟨some (nth b 0), b', hb'⟩

/-- C8 witness: `remove` on `new 1` returns without panicking. -/
theorem totality_and_bounds_witness :
    ∃ r : Option Nat, ∃ b', remove (new 1 : RingBuffer Nat) = some (r, b') :=
  (totality_and_bounds (Reachable.init (by decide))).2.2.2.2

/-- C9: `peek` is a pure function of the state, so `n` successive calls all
return the same value, pass the state through unchanged, and leave `size`
unchanged. -/
theorem peek_idempotent (b : RingBuffer T) (n : Nat) :
    peekN b n = (List.replicate n (peek b), b) ∧
    size (peekN b n).2 = size b := by
  have hmain : peekN b n = (List.replicate n (peek b), b) := by
    induction n with
    | zero => rfl
    | succ m ih =>
      rw [peekN, ih]
      simp [List.replicate_succ]
  exact ⟨hmain, by rw [hmain]⟩

/-- C10: on every reachable state, the `is_empty` flag being set forces
`front = end` — exactly the unstated invariant that makes `size` return `0`
(instead of a cursor-difference value) on an empty buffer. -/
theorem empty_flag_cursor_invariant {c : Nat} {b : RingBuffer T}
    (h : Reachable c b) (hE : b.is_empty = true) :
    b.front = b.«end» ∧ size b = 0 := by
  have hWF := reachable_wf h
  exact ⟨hWF.2.2.2.2 hE, size_of_empty hWF hE⟩

/-- C10 witness at `new 1`. -/
theorem empty_flag_cursor_invariant_witness :
    (new 1 : RingBuffer Nat).front = (new 1 : RingBuffer Nat).«end» ∧
    size (new 1 : RingBuffer Nat) = 0 :=
  empty_flag_cursor_invariant (Reachable.init (by decide)) rfl

end RingBuffer
